import Mathlib

/-!
Verification development for the traffic-shaping core of the rnbwsmk-ai
repository: the sliding-window rate limiter with penalty blocks
(`RateLimitService`), the TTL + size-capped result cache inside
`VectorizeService`, the stable cache-key serialization, the AI-gateway
cache-key derivation, and the HTTP 429 rate-limit enforcement helper.

Shallow embedding conventions:
- A JavaScript `Map<string, V>` is modelled as an association list
  `List (String × V)` in insertion order.  `Map.get` returns the first
  binding, `Map.set` updates the first binding in place or appends,
  `Map.delete` removes bindings with the key, and `keys().next().value`
  is the head key.
- `Date.now()` is passed explicitly as a `Nat` millisecond timestamp.
- Asynchronous storage calls are modelled as explicit state passing.
- `crypto.subtle.digest` (a platform primitive, external to the
  repository) is passed in as an abstract pure byte-producing function;
  `none` models a digest failure caught by the surrounding `try/catch`.
-/

namespace RnbwSmk

/-- JS `Map.get`: the value of the first binding with the key, if any. -/
def mapGet {α : Type} : List (String × α) → String → Option α
  | [], _ => none
  | p :: rest, k => if p.1 == k then some p.2 else mapGet rest k

/-- JS `Map.set`: update the first binding with the key in place, else append. -/
def mapSet {α : Type} : List (String × α) → String → α → List (String × α)
  | [], k, v => [(k, v)]
  | p :: rest, k, v => if p.1 == k then (k, v) :: rest else p :: mapSet rest k v

/-- JS `Map.delete`: remove bindings with the key. -/
def mapDelete {α : Type} : List (String × α) → String → List (String × α)
  | [], _ => []
  | p :: rest, k => if p.1 == k then mapDelete rest k else p :: mapDelete rest k

/-- JS `map.keys().next().value` with the falsy-`undefined` case mapped to `""`
(the `if (firstKey)` guards in the source treat both the same way). -/
def firstKey {α : Type} : List (String × α) → String
  | [] => ""
  | p :: _ => p.1

/-- Shared shape of `RateLimitService.setEntry` (memory path) and
`VectorizeService.setCached`: write the binding, then if the map outgrew
`cap`, delete the first binding in iteration order (skipped when the first
key is the empty string, which is falsy in JS). -/
def cappedSet {α : Type} (m : List (String × α)) (cap : Nat) (k : String) (v : α) :
    List (String × α) :=
  let m' := mapSet m k v
  if m'.length > cap then
    if firstKey m' ≠ "" then mapDelete m' (firstKey m') else m'
  else m'

/-! ## RateLimitService (src/server/services/RateLimitService.ts) -/

/-- Options of `RateLimitService.consume`. -/
structure RateLimitOptions where
  limit : Nat
  windowMs : Nat
  blockDurationMs : Option Nat := none
deriving Repr, DecidableEq

/-- Result of `RateLimitService.consume`.  Fields absent from a TS object
literal (`retryAfter`, `blocked` on allowed results) are `none`. -/
structure RateLimitResult where
  allowed : Bool
  limit : Nat
  remaining : Nat
  reset : Nat
  retryAfter : Option Nat := none
  blocked : Option Bool := none
deriving Repr, DecidableEq

/-- Stored per-identifier counter state. -/
structure RateLimitEntry where
  count : Nat
  reset : Nat
  blockUntil : Option Nat := none
deriving Repr, DecidableEq

/-- The process-local `__RNBWSMK_RATE_LIMIT__` map, in insertion order. -/
abbrev RLState := List (String × RateLimitEntry)

/-- Key prefixing in `consume`. -/
def rlKey (identifier : String) : String := "rl:" ++ identifier

/-- Math.ceil(d / 1000) on a nonnegative integer millisecond delta. -/
def ceilDiv1000 (d : Nat) : Nat := (d + 999) / 1000

/-- Math.ceil(w * 0.5) for a natural w (w * 0.5 is exact in doubles below 2^53). -/
def halfCeil (w : Nat) : Nat := (w + 1) / 2

/-- Memory path of `RateLimitService.getEntry`: an entry whose window expired
is returned anyway while its block is still active, and is otherwise deleted.
Returns the looked-up entry and the possibly updated map. -/
def getEntry (s : RLState) (now : Nat) (key : String) :
    Option RateLimitEntry × RLState :=
  match mapGet s key with
  | none => (none, s)
  | some e =>
    if e.reset < now then
      match e.blockUntil with
      | some b => if b > now then (some e, s) else (none, mapDelete s key)
      | none => (none, mapDelete s key)
    else (some e, s)

/-- Memory path of `RateLimitService.setEntry`: write, then cap the map at
512 entries by deleting the first key in iteration order. -/
def setEntry (s : RLState) (key : String) (e : RateLimitEntry) : RLState :=
  cappedSet s 512 key e

/-- Steps 3-6 of `consume` once the active-block early return did not fire:
refresh an expired or missing window, increment, clamp on overflow and set
`blockUntil`, persist, and build the result. -/
def consumeCore (s : RLState) (now : Nat) (key : String)
    (entry? : Option RateLimitEntry) (o : RateLimitOptions) :
    RateLimitResult × RLState :=
  let e0 : RateLimitEntry :=
    match entry? with
    | some e => if now ≥ e.reset then { count := 0, reset := now + o.windowMs } else e
    | none => { count := 0, reset := now + o.windowMs }
  let e1 : RateLimitEntry := { e0 with count := e0.count + 1 }
  if e1.count > o.limit then
    let penalty := o.blockDurationMs.getD (halfCeil o.windowMs)
    let e2 : RateLimitEntry := { e1 with count := o.limit, blockUntil := some (now + penalty) }
    ({ allowed := false, blocked := some true, limit := o.limit, remaining := 0,
       reset := e2.reset, retryAfter := some (ceilDiv1000 penalty) }, setEntry s key e2)
  else
    ({ allowed := true, limit := o.limit, remaining := o.limit - e1.count,
       reset := e1.reset }, setEntry s key e1)

/-- `RateLimitService.consume` on the process-local map: look up the entry,
deny immediately while a block is active, otherwise count the request. -/
def consume (s : RLState) (now : Nat) (identifier : String)
    (o : RateLimitOptions) : RateLimitResult × RLState :=
  let key := rlKey identifier
  let g := getEntry s now key
  match g.1 with
  | some e =>
    match e.blockUntil with
    | some b =>
      if now < b then
        ({ allowed := false, blocked := some true, limit := o.limit, remaining := 0,
           reset := e.reset, retryAfter := some (ceilDiv1000 (b - now)) }, g.2)
      else consumeCore g.2 now key (some e) o
    | none => consumeCore g.2 now key (some e) o
  | none => consumeCore g.2 now key none o

/-- Run `consume` for one identifier at each timestamp of the list in order. -/
def consumeSeq (s : RLState) (ts : List Nat) (identifier : String)
    (o : RateLimitOptions) : List RateLimitResult × RLState :=
  match ts with
  | [] => ([], s)
  | t :: rest =>
    let r := consume s t identifier o
    let r' := consumeSeq r.2 rest identifier o
    (r.1 :: r'.1, r'.2)

/-- Durable path of `RateLimitService.getEntry`: same expiry decision,
but reads never mutate the store. -/
def getEntryDurable (s : List (String × RateLimitEntry)) (now : Nat)
    (key : String) : Option RateLimitEntry :=
  match mapGet s key with
  | none => none
  | some e =>
    if e.reset < now then
      match e.blockUntil with
      | some b => if b > now then some e else none
      | none => none
    else some e

/-- `RateLimitService.consume` backed by Durable Object storage: identical
decision logic, a plain `put` with no size cap. -/
def consumeDurable (s : List (String × RateLimitEntry)) (now : Nat)
    (identifier : String) (o : RateLimitOptions) :
    RateLimitResult × List (String × RateLimitEntry) :=
  let key := rlKey identifier
  match getEntryDurable s now key with
  | some e =>
    match e.blockUntil with
    | some b =>
      if now < b then
        ({ allowed := false, blocked := some true, limit := o.limit, remaining := 0,
           reset := e.reset, retryAfter := some (ceilDiv1000 (b - now)) }, s)
      else
        let r := consumeCoreDurable s now key (some e) o
        r
    | none => consumeCoreDurable s now key (some e) o
  | none => consumeCoreDurable s now key none o
where
  consumeCoreDurable (s : List (String × RateLimitEntry)) (now : Nat) (key : String)
      (entry? : Option RateLimitEntry) (o : RateLimitOptions) :
      RateLimitResult × List (String × RateLimitEntry) :=
    let e0 : RateLimitEntry :=
      match entry? with
      | some e => if now ≥ e.reset then { count := 0, reset := now + o.windowMs } else e
      | none => { count := 0, reset := now + o.windowMs }
    let e1 : RateLimitEntry := { e0 with count := e0.count + 1 }
    if e1.count > o.limit then
      let penalty := o.blockDurationMs.getD (halfCeil o.windowMs)
      let e2 : RateLimitEntry := { e1 with count := o.limit, blockUntil := some (now + penalty) }
      ({ allowed := false, blocked := some true, limit := o.limit, remaining := 0,
         reset := e2.reset, retryAfter := some (ceilDiv1000 penalty) }, mapSet s key e2)
    else
      ({ allowed := true, limit := o.limit, remaining := o.limit - e1.count,
         reset := e1.reset }, mapSet s key e1)

example : (consume [] 0 "u" { limit := 2, windowMs := 1000 }).1.remaining = 1 := by decide

example :
    ((consumeSeq [] [0, 0, 0] "u" { limit := 2, windowMs := 1000 }).1.map
      RateLimitResult.allowed) = [true, true, false] := by decide

/-! ## VectorizeService result cache (src/server/services/VectorizeService.ts) -/

/-- A memoized result with its expiry timestamp. -/
structure VectorCacheEntry (α : Type) where
  data : α
  expiresAt : Nat
deriving Repr, DecidableEq

/-- The cache-relevant fields of a `VectorizeService` instance: the
`__RNBWSMK_VECTOR_CACHE__` map plus the constructor options. -/
structure VectorCacheState (α : Type) where
  cache : List (String × VectorCacheEntry α)
  cacheEnabled : Bool
  cacheTtlMs : Nat
  maxCacheEntries : Nat
deriving Repr, DecidableEq

/-- `VectorizeService.getCached`: return the entry only while unexpired,
deleting an expired entry lazily on read. -/
def getCached {α : Type} (st : VectorCacheState α) (now : Nat) (key : String) :
    Option α × VectorCacheState α :=
  if st.cacheEnabled = false then (none, st)
  else
    match mapGet st.cache key with
    | some e =>
      if e.expiresAt > now then (some e.data, st)
      else (none, { st with cache := mapDelete st.cache key })
    | none => (none, st)

/-- `VectorizeService.setCached`: insert with `expiresAt = now + ttl`, then
evict the first key in iteration order if the map outgrew `maxCacheEntries`. -/
def setCached {α : Type} (st : VectorCacheState α) (now : Nat) (key : String)
    (data : α) : VectorCacheState α :=
  if st.cacheEnabled = false then st
  else
    { st with cache :=
        cappedSet st.cache st.maxCacheEntries key ⟨data, now + st.cacheTtlMs⟩ }

/-- Insert a list of key/value pairs at one timestamp, in order. -/
def setCachedList {α : Type} (st : VectorCacheState α) (now : Nat)
    (l : List (String × α)) : VectorCacheState α :=
  l.foldl (fun acc p => setCached acc now p.1 p.2) st

/-! ## Stable serialization and cache keys (VectorizeService) -/

/-- JSON-like values appearing in query filter objects.  An `obj` models a
JS object, whose keys are unique and carried in insertion order. -/
inductive JValue where
  | null : JValue
  | bool : Bool → JValue
  | num : Int → JValue
  | str : String → JValue
  | arr : List JValue → JValue
  | obj : List (String × JValue) → JValue
deriving Repr

/-- JSON string escaping for the characters relevant here. -/
def jsonEscapeChar (c : Char) : String :=
  if c = '"' then "\\\""
  else if c = '\\' then "\\\\"
  else if c = '\n' then "\\n"
  else if c = '\r' then "\\r"
  else if c = '\t' then "\\t"
  else String.singleton c

/-- JSON.stringify of a string. -/
def jsonQuote (s : String) : String :=
  "\"" ++ String.join (s.toList.map jsonEscapeChar) ++ "\""

/-- Lexicographic comparison of character code sequences, as used by the
default JS `Array.prototype.sort()` on strings. -/
def charListLe : List Char → List Char → Bool
  | [], _ => true
  | _ :: _, [] => false
  | a :: as, b :: bs =>
    if a.toNat < b.toNat then true
    else if b.toNat < a.toNat then false
    else charListLe as bs

/-- String order used by JS `Array.prototype.sort()` on keys. -/
def strLe (a b : String) : Prop := charListLe a.data b.data = true

instance : DecidableRel strLe := fun a b =>
  inferInstanceAs (Decidable (charListLe a.data b.data = true))

mutual

/-- `VectorizeService.stableSerialize`: primitives via JSON.stringify, arrays
positionally, objects with keys sorted lexicographically.  Field values are
serialized pointwise before the key lookup (so the recursion is structural);
since the lookup returns the first binding and serialization is applied
pointwise, this equals serializing the looked-up value as the source does. -/
def stableSerialize : JValue → String
  | .null => "null"
  | .bool b => if b then "true" else "false"
  | .num n => toString n
  | .str s => jsonQuote s
  | .arr items => "[" ++ String.intercalate "," (stableSerializeList items) ++ "]"
  | .obj fields =>
    let ser := stableSerializeFields fields
    let ks := List.insertionSort strLe (ser.map Prod.fst)
    "\x7b" ++
      String.intercalate ","
        (ks.map (fun k => jsonQuote k ++ ":" ++ (mapGet ser k).getD "null")) ++
      "\x7d"
termination_by structural v => v

/-- Serialize the elements of an array in order. -/
def stableSerializeList : List JValue → List String
  | [] => []
  | v :: rest => stableSerialize v :: stableSerializeList rest
termination_by structural l => l

/-- Serialize the value of every field, keeping keys and their order. -/
def stableSerializeFields : List (String × JValue) → List (String × String)
  | [] => []
  | (k, v) :: rest => (k, stableSerialize v) :: stableSerializeFields rest
termination_by structural l => l

end

/-- `VectorizeService.buildCacheKey`: a kind tag plus parts joined by `|`. -/
def buildCacheKey (kind : String) (parts : List String) : String :=
  kind ++ ":" ++ String.intercalate "|" parts

/-! ## AI gateway cache key (src/server/index.ts, AIService) -/

/-- A chat message as serialized into the gateway cache-key payload. -/
structure GMessage where
  role : String
  content : String
deriving Repr, DecidableEq

/-- JSON.stringify of one message object. -/
def messageJson (m : GMessage) : String :=
  "\x7b\"role\":" ++ jsonQuote m.role ++ ",\"content\":" ++ jsonQuote m.content ++ "\x7d"

/-- JSON.stringify of the payload object of `buildGatewayCacheKey`. -/
def gatewayPayload (model : String) (messages : List GMessage) : String :=
  "\x7b\"model\":" ++ jsonQuote model ++ ",\"messages\":[" ++
    String.intercalate "," (messages.map messageJson) ++ "]\x7d"

/-- Hex encoding of one byte: `toString(16).padStart(2, '0')`. -/
def hexByte (b : Nat) : String :=
  let s := String.mk (Nat.toDigits 16 b)
  if s.length < 2 then "0" ++ s else s

/-- Hex encoding of a digest byte array. -/
def hexEncode (bytes : List Nat) : String := String.join (bytes.map hexByte)

/-- `AIService.buildGatewayCacheKey`: hex-encoded digest of the serialized
`\x7bmodel, messages\x7d` payload.  The digest primitive is abstract; `none`
models a `crypto.subtle` failure caught by the `try/catch`, which yields
the empty string. -/
def buildGatewayCacheKey (digest : String → Option (List Nat))
    (model : String) (messages : List GMessage) : String :=
  match digest (gatewayPayload model messages) with
  | some bytes => hexEncode bytes
  | none => ""

/-- Outbound headers built in `AIService.streamViaGateway`: the cache-key
header is attached only when the derived key is truthy (nonempty). -/
def gatewayHeaders (cacheKey : String) (cacheTtl : Nat) : List (String × String) :=
  let base := [("Content-Type", "application/json"),
               ("cf-aig-cache-ttl", toString cacheTtl)]
  if cacheKey ≠ "" then base ++ [("cf-aig-cache-key", cacheKey)] else base

/-! ## HTTP rate-limit enforcement (stateless worker, enforceHttpRateLimit) -/

/-- The JSON body returned on HTTP rate-limit denial, with exactly the
fields of the source object literal. -/
structure RateLimitErrorBody where
  error : String
  bucket : String
  retryAfter : Int
deriving Repr, DecidableEq

/-- The observable parts of the 429 response. -/
structure HttpResponse where
  status : Nat
  headers : List (String × String)
  body : RateLimitErrorBody
deriving Repr, DecidableEq

/-- `enforceHttpRateLimit`: consume `bucket:clientId` with
`blockDurationMs = windowMs`; `none` means the request may proceed,
`some` is the 429 response. -/
def enforceHttpRateLimit (s : RLState) (now : Nat) (bucket clientId : String)
    (limit windowMs : Nat) : Option HttpResponse × RLState :=
  let r := consume s now (bucket ++ ":" ++ clientId)
    { limit := limit, windowMs := windowMs, blockDurationMs := some windowMs }
  if r.1.allowed then (none, r.2)
  else
    let retryAfter : Int :=
      match r.1.retryAfter with
      | some ra => (ra : Int)
      | none => (((r.1.reset : Int) - (now : Int)) + 999).fdiv 1000
    (some { status := 429,
            headers := [("Retry-After", toString retryAfter)],
            body := { error := "Rate limit exceeded", bucket := bucket,
                      retryAfter := retryAfter } }, r.2)

example :
    (getCached (setCached ⟨[], true, 45000, 256⟩ 0 "k" (7 : Nat)) 10 "k").1 = some 7 := by
  decide

example :
    stableSerialize (.obj [("b", .num 1), ("a", .str "x")]) =
      "\x7b\"a\":\"x\",\"b\":1\x7d" := by decide

example :
    (enforceHttpRateLimit [] 0 "search" "1.2.3.4" 0 60000).1 =
      some ⟨429, [("Retry-After", "60")],
            ⟨"Rate limit exceeded", "search", 60⟩⟩ := by decide

/-! ## Order facts about the key comparison -/

lemma charListLe_cons_iff {a b : Char} {as bs : List Char} :
    charListLe (a :: as) (b :: bs) = true ↔
      a.toNat < b.toNat ∨ (a.toNat = b.toNat ∧ charListLe as bs = true) := by
  simp only [charListLe]
  by_cases h1 : a.toNat < b.toNat
  · simp [h1]
  · by_cases h2 : b.toNat < a.toNat
    · simp only [if_neg h1, if_pos h2]
      constructor
      · intro h
        exact absurd h (by decide)
      · rintro (h | ⟨h, _⟩) <;> omega
    · have he : a.toNat = b.toNat := by omega
      simp [h1, he]

lemma charListLe_nil_left (l : List Char) : charListLe [] l = true := by
  cases l <;> rfl

lemma charListLe_cons_nil (a : Char) (as : List Char) :
    charListLe (a :: as) [] = false := rfl

lemma charListLe_total : ∀ x y : List Char, charListLe x y = true ∨ charListLe y x = true
  | [], y => Or.inl (charListLe_nil_left y)
  | _ :: _, [] => Or.inr (charListLe_nil_left _)
  | a :: as, b :: bs => by
    rcases Nat.lt_trichotomy a.toNat b.toNat with h | h | h
    · exact Or.inl (charListLe_cons_iff.mpr (Or.inl h))
    · rcases charListLe_total as bs with ih | ih
      · exact Or.inl (charListLe_cons_iff.mpr (Or.inr ⟨h, ih⟩))
      · exact Or.inr (charListLe_cons_iff.mpr (Or.inr ⟨h.symm, ih⟩))
    · exact Or.inr (charListLe_cons_iff.mpr (Or.inl h))

lemma charListLe_antisymm : ∀ x y : List Char,
    charListLe x y = true → charListLe y x = true → x = y
  | [], [], _, _ => rfl
  | [], _ :: _, _, hyx => by simp [charListLe_cons_nil] at hyx
  | _ :: _, [], hxy, _ => by simp [charListLe_cons_nil] at hxy
  | a :: as, b :: bs, hxy, hyx => by
    rcases charListLe_cons_iff.mp hxy with h | ⟨he, ht⟩
    · rcases charListLe_cons_iff.mp hyx with h' | ⟨he', _⟩ <;> omega
    · rcases charListLe_cons_iff.mp hyx with h' | ⟨_, ht'⟩
      · omega
      · have hc : a = b := Char.eq_of_val_eq (UInt32.ext he)
        rw [hc, charListLe_antisymm as bs ht ht']

lemma charListLe_trans : ∀ x y z : List Char,
    charListLe x y = true → charListLe y z = true → charListLe x z = true
  | [], _, z, _, _ => charListLe_nil_left z
  | _ :: _, [], _, hxy, _ => by simp [charListLe_cons_nil] at hxy
  | _ :: _, _ :: _, [], _, hyz => by simp [charListLe_cons_nil] at hyz
  | a :: as, b :: bs, c :: cs, hxy, hyz => by
    rcases charListLe_cons_iff.mp hxy with h | ⟨he, ht⟩ <;>
      rcases charListLe_cons_iff.mp hyz with h' | ⟨he', ht'⟩
    · exact charListLe_cons_iff.mpr (Or.inl (by omega))
    · exact charListLe_cons_iff.mpr (Or.inl (by omega))
    · exact charListLe_cons_iff.mpr (Or.inl (by omega))
    · exact charListLe_cons_iff.mpr
        (Or.inr ⟨by omega, charListLe_trans as bs cs ht ht'⟩)

instance : IsTotal String strLe := ⟨fun a b => charListLe_total a.data b.data⟩

instance : IsTrans String strLe :=
  ⟨fun a b c => charListLe_trans a.data b.data c.data⟩

instance : IsAntisymm String strLe :=
  ⟨fun a b hab hba => by
    cases a with
    | mk da =>
      cases b with
      | mk db => exact congrArg String.mk (charListLe_antisymm da db hab hba)⟩

/-! ## Association-list (JS Map) lemmas -/

section MapLemmas

variable {α : Type}

lemma mapGet_eq_none_iff (m : List (String × α)) (k : String) :
    mapGet m k = none ↔ ∀ p ∈ m, p.1 ≠ k := by
  induction m with
  | nil => simp [mapGet]
  | cons p rest ih =>
    simp only [mapGet]
    by_cases h : p.1 = k
    · simp [h]
    · simp only [beq_iff_eq, if_neg h, ih, List.mem_cons]
      constructor
      · intro hrest q hq
        rcases hq with hq | hq
        · exact hq ▸ h
        · exact hrest q hq
      · intro hall q hq
        exact hall q (Or.inr hq)

lemma mapGet_eq_some_mem {m : List (String × α)} {k : String} {v : α}
    (h : mapGet m k = some v) : (k, v) ∈ m := by
  induction m with
  | nil => simp [mapGet] at h
  | cons p rest ih =>
    simp only [mapGet] at h
    by_cases hp : p.1 = k
    · simp only [beq_iff_eq, if_pos hp] at h
      cases h
      exact List.mem_cons.mpr (Or.inl (by rw [← hp]))
    · simp only [beq_iff_eq, if_neg hp] at h
      exact List.mem_cons_of_mem _ (ih h)

lemma mapGet_of_nodup_mem {m : List (String × α)} {k : String} {v : α}
    (hn : (m.map Prod.fst).Nodup) (hm : (k, v) ∈ m) : mapGet m k = some v := by
  induction m with
  | nil => simp at hm
  | cons p rest ih =>
    simp only [List.map_cons, List.nodup_cons] at hn
    rcases List.mem_cons.mp hm with h | h
    · simp [mapGet, ← h]
    · have hne : p.1 ≠ k := by
        intro he
        exact hn.1 (he ▸ (List.mem_map.mpr ⟨(k, v), h, rfl⟩))
      simp only [mapGet, beq_iff_eq, if_neg hne]
      exact ih hn.2 h

lemma mapGet_last (pre : List (String × α)) (k : String) (v : α)
    (h : ∀ p ∈ pre, p.1 ≠ k) : mapGet (pre ++ [(k, v)]) k = some v := by
  induction pre with
  | nil => simp [mapGet]
  | cons p rest ih =>
    have hp : p.1 ≠ k := h p (by simp)
    simp only [List.cons_append, mapGet, beq_iff_eq, if_neg hp]
    exact ih (fun q hq => h q (List.mem_cons_of_mem _ hq))

lemma mapSet_of_not_mem (m : List (String × α)) (k : String) (v : α)
    (h : ∀ p ∈ m, p.1 ≠ k) : mapSet m k v = m ++ [(k, v)] := by
  induction m with
  | nil => rfl
  | cons p rest ih =>
    have hp : p.1 ≠ k := h p (by simp)
    simp only [mapSet, beq_iff_eq, if_neg hp, List.cons_append]
    rw [ih (fun q hq => h q (List.mem_cons_of_mem _ hq))]

lemma mapSet_last (pre : List (String × α)) (k : String) (v w : α)
    (h : ∀ p ∈ pre, p.1 ≠ k) : mapSet (pre ++ [(k, v)]) k w = pre ++ [(k, w)] := by
  induction pre with
  | nil => simp [mapSet]
  | cons p rest ih =>
    have hp : p.1 ≠ k := h p (by simp)
    simp only [List.cons_append, mapSet, beq_iff_eq, if_neg hp]
    exact congrArg (List.cons p) (ih (fun q hq => h q (List.mem_cons_of_mem _ hq)))

lemma mapGet_mapSet_self (m : List (String × α)) (k : String) (v : α) :
    mapGet (mapSet m k v) k = some v := by
  induction m with
  | nil => simp [mapSet, mapGet]
  | cons p rest ih =>
    by_cases hp : p.1 = k
    · simp [mapSet, mapGet, hp]
    · simp [mapSet, mapGet, hp, ih]

lemma mapSet_length_of_none {m : List (String × α)} {k : String} (v : α)
    (h : mapGet m k = none) : (mapSet m k v).length = m.length + 1 := by
  rw [mapSet_of_not_mem m k v ((mapGet_eq_none_iff m k).mp h)]
  simp

lemma mapSet_length_of_some {m : List (String × α)} {k : String} {v' : α} (v : α)
    (h : mapGet m k = some v') : (mapSet m k v).length = m.length := by
  induction m with
  | nil => simp [mapGet] at h
  | cons p rest ih =>
    by_cases hp : p.1 = k
    · simp [mapSet, hp]
    · simp only [mapGet, beq_iff_eq, if_neg hp] at h
      simp only [mapSet, beq_iff_eq, if_neg hp, List.length_cons]
      rw [ih h]

lemma mem_mapSet {m : List (String × α)} {k : String} {v : α} {p : String × α}
    (h : p ∈ mapSet m k v) : p ∈ m ∨ p = (k, v) := by
  induction m with
  | nil =>
    simp only [mapSet, List.mem_singleton] at h
    exact Or.inr h
  | cons q rest ih =>
    by_cases hq : q.1 = k
    · simp only [mapSet, beq_iff_eq, if_pos hq, List.mem_cons] at h
      rcases h with h | h
      · exact Or.inr h
      · exact Or.inl (List.mem_cons_of_mem _ h)
    · simp only [mapSet, beq_iff_eq, if_neg hq, List.mem_cons] at h
      rcases h with h | h
      · exact Or.inl (h ▸ List.mem_cons_self q rest)
      · rcases ih h with h' | h'
        · exact Or.inl (List.mem_cons_of_mem _ h')
        · exact Or.inr h'

lemma mem_mapDelete {m : List (String × α)} {k : String} {p : String × α}
    (h : p ∈ mapDelete m k) : p ∈ m := by
  induction m with
  | nil => simp [mapDelete] at h
  | cons q rest ih =>
    by_cases hq : q.1 = k
    · simp only [mapDelete, beq_iff_eq, if_pos hq] at h
      exact List.mem_cons_of_mem _ (ih h)
    · simp only [mapDelete, beq_iff_eq, if_neg hq, List.mem_cons] at h
      rcases h with h | h
      · exact h ▸ List.mem_cons_self q rest
      · exact List.mem_cons_of_mem _ (ih h)

lemma mapDelete_length_le (m : List (String × α)) (k : String) :
    (mapDelete m k).length ≤ m.length := by
  induction m with
  | nil => simp [mapDelete]
  | cons q rest ih =>
    by_cases hq : q.1 = k
    · simp only [mapDelete, beq_iff_eq, if_pos hq, List.length_cons]
      omega
    · simp only [mapDelete, beq_iff_eq, if_neg hq, List.length_cons]
      omega

lemma mapGet_mapDelete (m : List (String × α)) (k0 k : String) :
    mapGet (mapDelete m k0) k = if k = k0 then none else mapGet m k := by
  induction m with
  | nil => simp [mapDelete, mapGet]
  | cons q rest ih =>
    by_cases hq : q.1 = k0
    · by_cases hk : k = k0
      · subst hk
        simp only [mapDelete, beq_iff_eq, if_pos hq, ih]
        simp
      · have hqk : q.1 ≠ k := fun h => hk (by rw [← h]; exact hq)
        simp only [mapDelete, beq_iff_eq, if_pos hq, ih, if_neg hk, mapGet,
          if_neg hqk]
    · by_cases hqk : q.1 = k
      · have hk : k ≠ k0 := fun h => hq (hqk.trans h)
        simp only [mapDelete, beq_iff_eq, if_neg hq, mapGet, if_pos hqk,
          if_neg hk]
      · simp only [mapDelete, beq_iff_eq, if_neg hq, mapGet, if_neg hqk, ih]

lemma mapDelete_of_not_mem (m : List (String × α)) (k : String)
    (h : ∀ p ∈ m, p.1 ≠ k) : mapDelete m k = m := by
  induction m with
  | nil => rfl
  | cons q rest ih =>
    have hq : q.1 ≠ k := h q (by simp)
    simp only [mapDelete, beq_iff_eq, if_neg hq]
    rw [ih (fun p hp => h p (List.mem_cons_of_mem _ hp))]

lemma mapDelete_append (m1 m2 : List (String × α)) (k : String) :
    mapDelete (m1 ++ m2) k = mapDelete m1 k ++ mapDelete m2 k := by
  induction m1 with
  | nil => simp [mapDelete]
  | cons q rest ih =>
    by_cases hq : q.1 = k
    · simp [mapDelete, hq, ih]
    · simp [mapDelete, hq, ih]

/-! ### The capped-write pattern -/

lemma mapGet_cappedSet_self (m : List (String × α)) (cap : Nat) (k : String)
    (v : α) {v' : α} (h : mapGet (cappedSet m cap k v) k = some v') : v' = v := by
  unfold cappedSet at h
  set m' := mapSet m k v with hm'
  by_cases hlen : m'.length > cap
  · simp only [if_pos hlen] at h
    by_cases hfk : firstKey m' ≠ ""
    · simp only [if_pos hfk] at h
      rw [mapGet_mapDelete] at h
      by_cases hk : k = firstKey m'
      · simp [hk] at h
      · rw [if_neg hk, hm', mapGet_mapSet_self] at h
        exact (Option.some.inj h).symm
    · simp only [if_neg hfk, hm', mapGet_mapSet_self] at h
      exact (Option.some.inj h).symm
  · simp only [if_neg hlen, hm', mapGet_mapSet_self] at h
    exact (Option.some.inj h).symm

lemma cappedSet_length (m : List (String × α)) (cap : Nat) (k : String) (v : α)
    (hm : m.length ≤ cap) (hk : k ≠ "") (hkeys : ∀ p ∈ m, p.1 ≠ "") :
    (cappedSet m cap k v).length ≤ cap := by
  unfold cappedSet
  by_cases hlen : (mapSet m k v).length > cap
  · simp only [if_pos hlen]
    cases he : mapSet m k v with
    | nil => rw [he] at hlen; simp at hlen
    | cons q rest =>
      have hq1 : q.1 ≠ "" := by
        have hqmem : q ∈ mapSet m k v := he ▸ List.mem_cons_self q rest
        rcases mem_mapSet hqmem with h | h
        · exact hkeys q h
        · rw [h]; exact hk
      have hfk : firstKey (q :: rest) = q.1 := rfl
      rw [hfk]
      simp only [ne_eq, hq1, not_false_eq_true, if_true]
      simp only [mapDelete, beq_iff_eq, if_pos rfl]
      have hrest : rest.length ≤ cap := by
        by_cases hget : mapGet m k = none
        · have := mapSet_length_of_none (m := m) (k := k) v hget
          rw [he] at this
          simp only [List.length_cons] at this
          omega
        · rcases Option.ne_none_iff_exists'.mp hget with ⟨v0, hv0⟩
          have := mapSet_length_of_some (m := m) (k := k) v hv0
          rw [he] at this
          simp only [List.length_cons] at this
          omega
      exact le_trans (mapDelete_length_le rest q.1) hrest
  · simpa [if_neg hlen] using Nat.le_of_not_lt hlen

lemma cappedSet_fresh (m : List (String × α)) (cap : Nat) (k : String) (v : α)
    (hcap : 0 < cap) (h : ∀ p ∈ m, p.1 ≠ k) :
    ∃ pre, cappedSet m cap k v = pre ++ [(k, v)] ∧ ∀ p ∈ pre, p.1 ≠ k := by
  unfold cappedSet
  rw [mapSet_of_not_mem m k v h]
  by_cases hlen : (m ++ [(k, v)]).length > cap
  · simp only [if_pos hlen]
    cases m with
    | nil => simp at hlen; omega
    | cons q rest =>
      have hfk : firstKey ((q :: rest) ++ [(k, v)]) = q.1 := rfl
      by_cases hq0 : q.1 = ""
      · rw [hfk]
        simp only [hq0, ne_eq, not_true_eq_false, if_false]
        exact ⟨q :: rest, rfl, h⟩
      · rw [hfk]
        simp only [ne_eq, hq0, not_false_eq_true, if_true]
        refine ⟨mapDelete (q :: rest) q.1, ?_, ?_⟩
        · rw [mapDelete_append]
          have : mapDelete [(k, v)] q.1 = [(k, v)] := by
            apply mapDelete_of_not_mem
            intro p hp
            rw [List.mem_singleton] at hp
            subst hp
            exact fun hk => (h q (by simp)) hk.symm
          rw [this]
        · intro p hp
          exact h p (mem_mapDelete hp)
  · simp only [if_neg hlen]
    exact ⟨m, rfl, h⟩

lemma cappedSet_last (pre : List (String × α)) (cap : Nat) (k : String) (v w : α)
    (hcap : 0 < cap) (h : ∀ p ∈ pre, p.1 ≠ k) :
    ∃ pre', cappedSet (pre ++ [(k, v)]) cap k w = pre' ++ [(k, w)] ∧
      ∀ p ∈ pre', p.1 ≠ k := by
  unfold cappedSet
  rw [mapSet_last pre k v w h]
  by_cases hlen : (pre ++ [(k, w)]).length > cap
  · simp only [if_pos hlen]
    cases pre with
    | nil => simp at hlen; omega
    | cons q rest =>
      have hfk : firstKey ((q :: rest) ++ [(k, w)]) = q.1 := rfl
      by_cases hq0 : q.1 = ""
      · rw [hfk]
        simp only [hq0, ne_eq, not_true_eq_false, if_false]
        exact ⟨q :: rest, rfl, h⟩
      · rw [hfk]
        simp only [ne_eq, hq0, not_false_eq_true, if_true]
        refine ⟨mapDelete (q :: rest) q.1, ?_, ?_⟩
        · rw [mapDelete_append]
          have : mapDelete [(k, w)] q.1 = [(k, w)] := by
            apply mapDelete_of_not_mem
            intro p hp
            rw [List.mem_singleton] at hp
            subst hp
            exact fun hk => (h q (by simp)) hk.symm
          rw [this]
        · intro p hp
          exact h p (mem_mapDelete hp)
  · simp only [if_neg hlen]
    exact ⟨pre, rfl, h⟩

end MapLemmas

/-! ## Lemmas about consume -/

lemma rlKey_ne_empty (identifier : String) : rlKey identifier ≠ "" := by
  intro h
  have hlen := congrArg String.length h
  simp [rlKey, String.length_append] at hlen
  exact absurd hlen.1 (by decide)

/-- One consume call in the middle of an open window: the entry for the
identifier sits at the end of the map, its window has not expired, no block
is set, and the count is still below the limit. -/
lemma consume_step_mid (identifier : String) (o : RateLimitOptions)
    (pre : RLState) (c R t : Nat)
    (hpre : ∀ p ∈ pre, p.1 ≠ rlKey identifier)
    (hc : c < o.limit) (ht : t < R) :
    ∃ pre', consume (pre ++ [(rlKey identifier, ⟨c, R, none⟩)]) t identifier o =
      ({ allowed := true, limit := o.limit, remaining := o.limit - (c + 1),
         reset := R },
        pre' ++ [(rlKey identifier, ⟨c + 1, R, none⟩)]) ∧
      ∀ p ∈ pre', p.1 ≠ rlKey identifier := by
  obtain ⟨pre', hset, hpre'⟩ :=
    cappedSet_last pre 512 (rlKey identifier) ⟨c, R, none⟩ ⟨c + 1, R, none⟩
      (by omega) hpre
  refine ⟨pre', ?_, hpre'⟩
  have hget := mapGet_last pre (rlKey identifier) (⟨c, R, none⟩ : RateLimitEntry) hpre
  have hR : ¬ (R < t) := by omega
  have hR' : ¬ (t ≥ R) := by omega
  have hcnt : ¬ (c + 1 > o.limit) := by omega
  simp only [consume, getEntry, hget, hR, if_false, consumeCore, hR', ge_iff_le,
    setEntry]
  simp only [if_neg hR, if_neg hR', if_neg hcnt]
  rw [hset]

/-- The first consume call for an identifier with no stored entry. -/
lemma consume_step_fresh (identifier : String) (o : RateLimitOptions)
    (s : RLState) (t : Nat)
    (hnone : mapGet s (rlKey identifier) = none) (hlim : 0 < o.limit) :
    ∃ pre', consume s t identifier o =
      ({ allowed := true, limit := o.limit, remaining := o.limit - 1,
         reset := t + o.windowMs },
        pre' ++ [(rlKey identifier, ⟨1, t + o.windowMs, none⟩)]) ∧
      ∀ p ∈ pre', p.1 ≠ rlKey identifier := by
  have hkeys : ∀ p ∈ s, p.1 ≠ rlKey identifier := (mapGet_eq_none_iff _ _).mp hnone
  obtain ⟨pre', hset, hpre'⟩ :=
    cappedSet_fresh s 512 (rlKey identifier) (⟨1, t + o.windowMs, none⟩ : RateLimitEntry)
      (by omega) hkeys
  refine ⟨pre', ?_, hpre'⟩
  have hcnt : ¬ (0 + 1 > o.limit) := by omega
  simp only [consume, getEntry, hnone, consumeCore, setEntry]
  simp only [if_neg hcnt]
  rw [hset]

/-- Running a block-free, mid-window sequence of calls: every call is
allowed, the counts accumulate, and the entry stays at the end of the map. -/
lemma consumeSeq_mid (identifier : String) (o : RateLimitOptions) (R : Nat) :
    ∀ (ts : List Nat) (pre : RLState) (c : Nat),
      (∀ p ∈ pre, p.1 ≠ rlKey identifier) →
      (∀ t ∈ ts, t < R) →
      c + ts.length ≤ o.limit →
      ∃ pre',
        consumeSeq (pre ++ [(rlKey identifier, ⟨c, R, none⟩)]) ts identifier o =
          ((List.range ts.length).map (fun i =>
            ({ allowed := true, limit := o.limit,
               remaining := o.limit - (c + i + 1), reset := R } : RateLimitResult)),
            pre' ++ [(rlKey identifier, ⟨c + ts.length, R, none⟩)]) ∧
        ∀ p ∈ pre', p.1 ≠ rlKey identifier
  | [], pre, c, hpre, _, _ => ⟨pre, by simp [consumeSeq], hpre⟩
  | t :: ts, pre, c, hpre, hts, hlen => by
    have hc : c < o.limit := by
      simp only [List.length_cons] at hlen
      omega
    obtain ⟨pre1, hstep, hpre1⟩ :=
      consume_step_mid identifier o pre c R t hpre hc (hts t (by simp))
    obtain ⟨pre', hseq, hpre'⟩ :=
      consumeSeq_mid identifier o R ts pre1 (c + 1) hpre1
        (fun u hu => hts u (List.mem_cons_of_mem _ hu))
        (by simp only [List.length_cons] at hlen; omega)
    refine ⟨pre', ?_, hpre'⟩
    simp only [consumeSeq, hstep, hseq, List.length_cons, Prod.mk.injEq]
    constructor
    · rw [List.range_succ_eq_map, List.map_cons, List.map_map]
      congr 1
      apply List.map_congr_left
      intro i _
      simp only [Function.comp_apply, RateLimitResult.mk.injEq, and_true, true_and]
      omega
    · rw [show c + (ts.length + 1) = c + 1 + ts.length by omega]

/-! ## C1 -/

/-- C1: for every identifier starting with no stored entry, issuing exactly
`limit` calls to consume within one window returns allowed=true on every
call, with remaining decreasing by exactly one per call (from limit-1) and
equal to 0 on the final call. -/
theorem rateLimit_full_window_allows_all (s0 : RLState) (identifier : String)
    (o : RateLimitOptions) (t0 : Nat) (rest : List Nat)
    (hnone : mapGet s0 (rlKey identifier) = none)
    (hlen : rest.length + 1 = o.limit)
    (hwin : ∀ t ∈ rest, t < t0 + o.windowMs) :
    (consumeSeq s0 (t0 :: rest) identifier o).1 =
      (List.range o.limit).map (fun i =>
        ({ allowed := true, limit := o.limit, remaining := o.limit - (i + 1),
           reset := t0 + o.windowMs } : RateLimitResult)) ∧
    (∀ r ∈ (consumeSeq s0 (t0 :: rest) identifier o).1, r.allowed = true) ∧
    (∀ i, i + 1 < o.limit →
      ∃ a b, (consumeSeq s0 (t0 :: rest) identifier o).1[i]? = some a ∧
        (consumeSeq s0 (t0 :: rest) identifier o).1[i + 1]? = some b ∧
        b.remaining + 1 = a.remaining) ∧
    (∃ rl, (consumeSeq s0 (t0 :: rest) identifier o).1[o.limit - 1]? = some rl ∧
      rl.remaining = 0) := by
  have hlim : 0 < o.limit := by omega
  obtain ⟨pre1, hstep, hpre1⟩ := consume_step_fresh identifier o s0 t0 hnone hlim
  obtain ⟨pre2, hseq, _⟩ :=
    consumeSeq_mid identifier o (t0 + o.windowMs) rest pre1 1 hpre1 hwin (by omega)
  have hmain : (consumeSeq s0 (t0 :: rest) identifier o).1 =
      (List.range o.limit).map (fun i =>
        ({ allowed := true, limit := o.limit, remaining := o.limit - (i + 1),
           reset := t0 + o.windowMs } : RateLimitResult)) := by
    simp only [consumeSeq, hstep, hseq]
    rw [← hlen, List.range_succ_eq_map, List.map_cons, List.map_map]
    congr 1
    apply List.map_congr_left
    intro i _
    simp only [Function.comp_apply, RateLimitResult.mk.injEq, and_true, true_and]
    omega
  refine ⟨hmain, ?_, ?_, ?_⟩
  · intro r hr
    rw [hmain] at hr
    rcases List.mem_map.mp hr with ⟨i, _, hi⟩
    rw [← hi]
  · intro i hi
    refine ⟨{ allowed := true, limit := o.limit, remaining := o.limit - (i + 1),
              reset := t0 + o.windowMs },
            { allowed := true, limit := o.limit, remaining := o.limit - (i + 1 + 1),
              reset := t0 + o.windowMs }, ?_, ?_, ?_⟩
    · rw [hmain, List.getElem?_map, List.getElem?_range (by omega)]
      rfl
    · rw [hmain, List.getElem?_map, List.getElem?_range (by omega)]
      rfl
    · show o.limit - (i + 1 + 1) + 1 = o.limit - (i + 1)
      omega
  · refine ⟨{ allowed := true, limit := o.limit,
              remaining := o.limit - (o.limit - 1 + 1), reset := t0 + o.windowMs },
            ?_, ?_⟩
    · rw [hmain, List.getElem?_map, List.getElem?_range (by omega)]
      rfl
    · show o.limit - (o.limit - 1 + 1) = 0
      omega

/-- Witness for C1 at limit 3, window 1000ms, calls at t = 0, 10, 20. -/
theorem rateLimit_full_window_allows_all_witness :
    (consumeSeq [] [0, 10, 20] "u" { limit := 3, windowMs := 1000 }).1 =
      [⟨true, 3, 2, 1000, none, none⟩, ⟨true, 3, 1, 1000, none, none⟩,
       ⟨true, 3, 0, 1000, none, none⟩] :=
  ((rateLimit_full_window_allows_all [] "u" { limit := 3, windowMs := 1000 }
    0 [10, 20] rfl rfl (by decide)).1).trans (by decide)

/-! ## Result shape of consume -/

/-- Every consume result is either a denial carrying blocked=true and a
retryAfter value, or an allowed result carrying neither field. -/
lemma consume_result_shape (s : RLState) (now : Nat) (identifier : String)
    (o : RateLimitOptions) :
    ((consume s now identifier o).1.allowed = false ∧
     (consume s now identifier o).1.blocked = some true ∧
     ∃ ra, (consume s now identifier o).1.retryAfter = some ra) ∨
    ((consume s now identifier o).1.allowed = true ∧
     (consume s now identifier o).1.blocked = none ∧
     (consume s now identifier o).1.retryAfter = none) := by
  unfold consume getEntry consumeCore setEntry
  repeat' split <;> try simp

/-! ## C2 -/

/-- C2 as amended: while a block is active every consume call is denied with
blocked=true and the store is left untouched; the first call at or after
`blockUntil` succeeds normally provided the window has also expired
(`windowReset <= now`). -/
theorem block_active_denies_until_window (s : RLState) (now : Nat)
    (identifier : String) (o : RateLimitOptions) (e : RateLimitEntry) (b : Nat)
    (he : mapGet s (rlKey identifier) = some e) (hb : e.blockUntil = some b) :
    (now < b →
      (consume s now identifier o).1.allowed = false ∧
      (consume s now identifier o).1.blocked = some true ∧
      (consume s now identifier o).2 = s) ∧
    (b ≤ now → e.reset ≤ now → 0 < o.limit →
      (consume s now identifier o).1.allowed = true ∧
      (consume s now identifier o).1.remaining = o.limit - 1) := by
  constructor
  · intro hnow
    by_cases hr : e.reset < now
    · simp only [consume, getEntry, he, if_pos hr, hb,
        if_pos (show b > now from hnow), if_pos hnow]
      simp
    · simp only [consume, getEntry, he, if_neg hr, hb, if_pos hnow]
      simp
  · intro hbn hrn hlim
    have hcnt : ¬ (0 + 1 > o.limit) := by omega
    by_cases hr : e.reset < now
    · have hbg : ¬ (b > now) := by omega
      simp only [consume, getEntry, he, if_pos hr, hb, if_neg hbg, consumeCore]
      simp only [if_neg hcnt]
      simp
    · have hnb : ¬ (now < b) := by omega
      have hge : now ≥ e.reset := hrn
      simp only [consume, getEntry, he, if_neg hr, hb, if_neg hnb, consumeCore,
        ge_iff_le, if_pos hge]
      simp only [if_neg hcnt]
      simp

/-- Witness for C2: with entry count=2, reset=1000, blockUntil=500 stored,
a call at t=100 (block active) is denied and a call at t=2000 (block and
window both over) is allowed. -/
theorem block_active_denies_until_window_witness :
    (consume [(rlKey "u", ⟨2, 1000, some 500⟩)] 100 "u"
      { limit := 2, windowMs := 1000 }).1.allowed = false ∧
    (consume [(rlKey "u", ⟨2, 1000, some 500⟩)] 2000 "u"
      { limit := 2, windowMs := 1000 }).1.allowed = true := by
  constructor
  · exact ((block_active_denies_until_window
      [(rlKey "u", ⟨2, 1000, some 500⟩)] 100 "u" { limit := 2, windowMs := 1000 }
      ⟨2, 1000, some 500⟩ 500 (by decide) rfl).1 (by decide)).1
  · exact ((block_active_denies_until_window
      [(rlKey "u", ⟨2, 1000, some 500⟩)] 2000 "u" { limit := 2, windowMs := 1000 }
      ⟨2, 1000, some 500⟩ 500 (by decide) rfl).2 (by decide) (by decide) (by decide)).1

/-- C2 counterexample: with limit=2, windowMs=1000 and the default penalty
(half a window), three calls at t=0 store count=2 (clamped), reset=1000,
blockUntil=500; the first call strictly after blockUntil, at t=600, is
still denied because the window has not reset, contradicting the claim
that it succeeds. -/
theorem block_expiry_within_window_cex :
    mapGet (consumeSeq [] [0, 0, 0] "u" { limit := 2, windowMs := 1000 }).2
        (rlKey "u") = some ⟨2, 1000, some 500⟩ ∧
    (consumeSeq [] [0, 0, 0, 600] "u" { limit := 2, windowMs := 1000 }).1[3]? =
      some { allowed := false, limit := 2, remaining := 0, reset := 1000,
             retryAfter := some 1, blocked := some true } := by decide

/-! ## C3 -/

/-- C3 counterexample: with limit=1, the second call for a fresh identifier
tips the limit over itself (the stored entry has no blockUntil before the
call), yet the result carries blocked=true. -/
theorem blocked_true_on_tipover_cex :
    mapGet (consume [] 0 "u" { limit := 1, windowMs := 1000 }).2 (rlKey "u") =
      some ⟨1, 1000, none⟩ ∧
    (consume (consume [] 0 "u" { limit := 1, windowMs := 1000 }).2 0 "u"
        { limit := 1, windowMs := 1000 }).1 =
      { allowed := false, limit := 1, remaining := 0, reset := 1000,
        retryAfter := some 1, blocked := some true } := by decide

/-- C3 as amended: consume sets blocked=true on every denial, both when an
already-active penalty denies the call and when the current call itself
tips over the limit; allowed results omit the field. -/
theorem blocked_iff_denied (s : RLState) (now : Nat) (identifier : String)
    (o : RateLimitOptions) :
    (consume s now identifier o).1.blocked = some true ↔
      (consume s now identifier o).1.allowed = false := by
  rcases consume_result_shape s now identifier o with ⟨h1, h2, _⟩ | ⟨h1, h2, _⟩ <;>
    simp [h1, h2]

/-! ## C4 -/

/-- Whatever consumeCore persists for the key has count at most the limit:
the allowed branch is guarded by count+1 <= limit and the overflow branch
clamps the count to the limit. -/
lemma consumeCore_post_count (s : RLState) (now : Nat) (key : String)
    (entry? : Option RateLimitEntry) (o : RateLimitOptions) :
    ∀ e', mapGet (consumeCore s now key entry? o).2 key = some e' →
      e'.count ≤ o.limit := by
  intro e' he'
  rcases entry? with _ | e
  · simp only [consumeCore, setEntry] at he'
    by_cases hcnt : 0 + 1 > o.limit
    · rw [if_pos hcnt] at he'
      rw [mapGet_cappedSet_self _ _ _ _ he']
    · rw [if_neg hcnt] at he'
      rw [mapGet_cappedSet_self _ _ _ _ he']
      exact Nat.le_of_not_lt hcnt
  · simp only [consumeCore, setEntry] at he'
    by_cases hres : now ≥ e.reset
    · rw [if_pos hres] at he'
      by_cases hcnt : 0 + 1 > o.limit
      · rw [if_pos hcnt] at he'
        rw [mapGet_cappedSet_self _ _ _ _ he']
      · rw [if_neg hcnt] at he'
        rw [mapGet_cappedSet_self _ _ _ _ he']
        exact Nat.le_of_not_lt hcnt
    · rw [if_neg hres] at he'
      by_cases hcnt : e.count + 1 > o.limit
      · rw [if_pos hcnt] at he'
        rw [mapGet_cappedSet_self _ _ _ _ he']
      · rw [if_neg hcnt] at he'
        rw [mapGet_cappedSet_self _ _ _ _ he']
        exact Nat.le_of_not_lt hcnt

/-- Durable-path version of the previous lemma. -/
lemma consumeCoreDurable_post_count (s : List (String × RateLimitEntry))
    (now : Nat) (key : String) (entry? : Option RateLimitEntry)
    (o : RateLimitOptions) :
    ∀ e', mapGet (consumeDurable.consumeCoreDurable s now key entry? o).2 key =
      some e' → e'.count ≤ o.limit := by
  intro e' he'
  rcases entry? with _ | e
  · simp only [consumeDurable.consumeCoreDurable] at he'
    by_cases hcnt : 0 + 1 > o.limit
    · rw [if_pos hcnt] at he'
      rw [(Option.some.inj ((mapGet_mapSet_self _ _ _).symm.trans he')).symm]
    · rw [if_neg hcnt] at he'
      rw [(Option.some.inj ((mapGet_mapSet_self _ _ _).symm.trans he')).symm]
      exact Nat.le_of_not_lt hcnt
  · simp only [consumeDurable.consumeCoreDurable] at he'
    by_cases hres : now ≥ e.reset
    · rw [if_pos hres] at he'
      by_cases hcnt : 0 + 1 > o.limit
      · rw [if_pos hcnt] at he'
        rw [(Option.some.inj ((mapGet_mapSet_self _ _ _).symm.trans he')).symm]
      · rw [if_neg hcnt] at he'
        rw [(Option.some.inj ((mapGet_mapSet_self _ _ _).symm.trans he')).symm]
        exact Nat.le_of_not_lt hcnt
    · rw [if_neg hres] at he'
      by_cases hcnt : e.count + 1 > o.limit
      · rw [if_pos hcnt] at he'
        rw [(Option.some.inj ((mapGet_mapSet_self _ _ _).symm.trans he')).symm]
      · rw [if_neg hcnt] at he'
        rw [(Option.some.inj ((mapGet_mapSet_self _ _ _).symm.trans he')).symm]
        exact Nat.le_of_not_lt hcnt

/-- C4: when every consume call for an identifier uses the same limit, the
stored count never exceeds it, on the process-local and on the durable
path alike; and an overflowing call persists the count clamped to the
limit with blockUntil set to now plus the penalty, and is denied. -/
theorem count_clamped_le_limit (s : RLState)
    (d : List (String × RateLimitEntry)) (now : Nat) (identifier : String)
    (o : RateLimitOptions)
    (hs : ∀ e, mapGet s (rlKey identifier) = some e → e.count ≤ o.limit)
    (hd : ∀ e, mapGet d (rlKey identifier) = some e → e.count ≤ o.limit) :
    (∀ e', mapGet (consume s now identifier o).2 (rlKey identifier) = some e' →
      e'.count ≤ o.limit) ∧
    (∀ e', mapGet (consumeDurable d now identifier o).2 (rlKey identifier) =
      some e' → e'.count ≤ o.limit) ∧
    (∀ e, mapGet s (rlKey identifier) = some e →
      (∀ b, e.blockUntil = some b → b ≤ now) →
      now < e.reset →
      o.limit < e.count + 1 →
      (∀ e', mapGet (consume s now identifier o).2 (rlKey identifier) =
        some e' →
        e' = ⟨o.limit, e.reset,
              some (now + o.blockDurationMs.getD (halfCeil o.windowMs))⟩) ∧
      (consume s now identifier o).1.allowed = false ∧
      (consume s now identifier o).1.blocked = some true) := by
  refine ⟨?_, ?_, ?_⟩
  · intro e' he'
    rcases hg : mapGet s (rlKey identifier) with _ | e
    · simp only [consume, getEntry, hg] at he'
      exact consumeCore_post_count _ _ _ _ _ e' he'
    · by_cases hr : e.reset < now
      · rcases hbu : e.blockUntil with _ | b
        · simp only [consume, getEntry, hg, if_pos hr, hbu] at he'
          exact consumeCore_post_count _ _ _ _ _ e' he'
        · by_cases hbn : b > now
          · simp only [consume, getEntry, hg, if_pos hr, hbu, if_pos hbn,
              if_pos (show now < b from hbn)] at he'
            exact (Option.some.inj he') ▸ hs e hg
          · simp only [consume, getEntry, hg, if_pos hr, hbu, if_neg hbn] at he'
            exact consumeCore_post_count _ _ _ _ _ e' he'
      · rcases hbu : e.blockUntil with _ | b
        · simp only [consume, getEntry, hg, if_neg hr, hbu] at he'
          exact consumeCore_post_count _ _ _ _ _ e' he'
        · by_cases hnb : now < b
          · simp only [consume, getEntry, hg, if_neg hr, hbu, if_pos hnb] at he'
            exact (Option.some.inj he') ▸ hs e hg
          · simp only [consume, getEntry, hg, if_neg hr, hbu, if_neg hnb] at he'
            exact consumeCore_post_count _ _ _ _ _ e' he'
  · intro e' he'
    rcases hg : mapGet d (rlKey identifier) with _ | e
    · simp only [consumeDurable, getEntryDurable, hg] at he'
      exact consumeCoreDurable_post_count _ _ _ _ _ e' he'
    · by_cases hr : e.reset < now
      · rcases hbu : e.blockUntil with _ | b
        · simp only [consumeDurable, getEntryDurable, hg, if_pos hr, hbu] at he'
          exact consumeCoreDurable_post_count _ _ _ _ _ e' he'
        · by_cases hbn : b > now
          · simp only [consumeDurable, getEntryDurable, hg, if_pos hr, hbu,
              if_pos hbn, if_pos (show now < b from hbn)] at he'
            exact (Option.some.inj he') ▸ hd e hg
          · simp only [consumeDurable, getEntryDurable, hg, if_pos hr, hbu,
              if_neg hbn] at he'
            exact consumeCoreDurable_post_count _ _ _ _ _ e' he'
      · rcases hbu : e.blockUntil with _ | b
        · simp only [consumeDurable, getEntryDurable, hg, if_neg hr, hbu] at he'
          exact consumeCoreDurable_post_count _ _ _ _ _ e' he'
        · by_cases hnb : now < b
          · simp only [consumeDurable, getEntryDurable, hg, if_neg hr, hbu,
              if_pos hnb] at he'
            exact (Option.some.inj he') ▸ hd e hg
          · simp only [consumeDurable, getEntryDurable, hg, if_neg hr, hbu,
              if_neg hnb] at he'
            exact consumeCoreDurable_post_count _ _ _ _ _ e' he'
  · intro e hg hbu hres hcnt
    have hr : ¬ (e.reset < now) := by omega
    have hge : ¬ (now ≥ e.reset) := by omega
    rcases hb : e.blockUntil with _ | b
    · simp only [consume, getEntry, hg, if_neg hr, hb, consumeCore,
        ge_iff_le, setEntry]
      rw [if_neg hge, if_pos (show e.count + 1 > o.limit from hcnt)]
      refine ⟨?_, rfl, rfl⟩
      intro e' he'
      exact mapGet_cappedSet_self _ _ _ _ he'
    · have hble : b ≤ now := hbu b hb
      have hnb : ¬ (now < b) := by omega
      simp only [consume, getEntry, hg, if_neg hr, hb, if_neg hnb, consumeCore,
        ge_iff_le, setEntry]
      rw [if_neg hge, if_pos (show e.count + 1 > o.limit from hcnt)]
      refine ⟨?_, rfl, rfl⟩
      intro e' he'
      exact mapGet_cappedSet_self _ _ _ _ he'

/-- Witness for C4: a stored entry at the limit (count=2, limit=2) overflows
at t=0; the persisted entry is clamped to count=2 with blockUntil=500 and
the call is denied. -/
theorem count_clamped_le_limit_witness :
    (⟨2, 1000, some 500⟩ : RateLimitEntry).count ≤ 2 ∧
    (consume [(rlKey "u", ⟨2, 1000, none⟩)] 0 "u"
      { limit := 2, windowMs := 1000 }).1.allowed = false := by
  have hs : ∀ e, mapGet [(rlKey "u", (⟨2, 1000, none⟩ : RateLimitEntry))]
      (rlKey "u") = some e → e.count ≤ 2 := by
    intro e he
    rw [show mapGet [(rlKey "u", (⟨2, 1000, none⟩ : RateLimitEntry))] (rlKey "u") =
      some ⟨2, 1000, none⟩ from by decide] at he
    cases he
    decide
  have hd : ∀ e, mapGet ([] : List (String × RateLimitEntry)) (rlKey "u") =
      some e → e.count ≤ 2 := by
    intro e he
    simp [mapGet] at he
  have h := count_clamped_le_limit [(rlKey "u", ⟨2, 1000, none⟩)] [] 0 "u"
    { limit := 2, windowMs := 1000 } hs hd
  refine ⟨?_, ?_⟩
  · exact h.1 ⟨2, 1000, some 500⟩ (by decide)
  · exact (h.2.2 ⟨2, 1000, none⟩ (by decide) (fun b hb => by cases hb)
      (by decide) (by decide)).2.1

/-! ## C10 -/

lemma mem_cappedSet {α : Type} {m : List (String × α)} {cap : Nat} {k : String}
    {v : α} {p : String × α} (h : p ∈ cappedSet m cap k v) :
    p ∈ m ∨ p = (k, v) := by
  simp only [cappedSet] at h
  by_cases h1 : (mapSet m k v).length > cap
  · rw [if_pos h1] at h
    by_cases h2 : firstKey (mapSet m k v) ≠ ""
    · rw [if_pos h2] at h
      exact mem_mapSet (mem_mapDelete h)
    · rw [if_neg h2] at h
      exact mem_mapSet h
  · rw [if_neg h1] at h
    exact mem_mapSet h

/-- The memory-path write keeps the map within 512 entries and never
introduces an empty key. -/
lemma setEntry_inv (s : RLState) (key : String) (e : RateLimitEntry)
    (hlen : s.length ≤ 512) (hk : key ≠ "") (hkeys : ∀ p ∈ s, p.1 ≠ "") :
    (setEntry s key e).length ≤ 512 ∧ ∀ p ∈ setEntry s key e, p.1 ≠ "" :=
  ⟨cappedSet_length s 512 key e hlen hk hkeys,
   fun p hp => (mem_cappedSet hp).elim (hkeys p) (fun h => by rw [h]; exact hk)⟩

/-- consumeCore always ends in a setEntry on its input state. -/
lemma consumeCore_state_eq (s : RLState) (now : Nat) (key : String)
    (entry? : Option RateLimitEntry) (o : RateLimitOptions) :
    ∃ w, (consumeCore s now key entry? o).2 = setEntry s key w := by
  simp only [consumeCore]
  split
  · exact ⟨_, rfl⟩
  · exact ⟨_, rfl⟩

/-- The post-state of consume is the input map, or a capped write on it,
or a capped write on it after the read-time deletion of the expired entry. -/
lemma consume_state_shape (s : RLState) (now : Nat) (identifier : String)
    (o : RateLimitOptions) :
    (consume s now identifier o).2 = s ∨
    (∃ w, (consume s now identifier o).2 = setEntry s (rlKey identifier) w) ∨
    (∃ w, (consume s now identifier o).2 =
      setEntry (mapDelete s (rlKey identifier)) (rlKey identifier) w) := by
  rcases hg : mapGet s (rlKey identifier) with _ | e
  · simp only [consume, getEntry, hg]
    exact Or.inr (Or.inl (consumeCore_state_eq _ _ _ _ _))
  · by_cases hr : e.reset < now
    · rcases hbu : e.blockUntil with _ | b
      · simp only [consume, getEntry, hg, if_pos hr, hbu]
        exact Or.inr (Or.inr (consumeCore_state_eq _ _ _ _ _))
      · by_cases hbn : b > now
        · simp only [consume, getEntry, hg, if_pos hr, hbu, if_pos hbn,
            if_pos (show now < b from hbn)]
          exact Or.inl trivial
        · simp only [consume, getEntry, hg, if_pos hr, hbu, if_neg hbn]
          exact Or.inr (Or.inr (consumeCore_state_eq _ _ _ _ _))
    · rcases hbu : e.blockUntil with _ | b
      · simp only [consume, getEntry, hg, if_neg hr, hbu]
        exact Or.inr (Or.inl (consumeCore_state_eq _ _ _ _ _))
      · by_cases hnb : now < b
        · simp only [consume, getEntry, hg, if_neg hr, hbu, if_pos hnb]
          exact Or.inl trivial
        · simp only [consume, getEntry, hg, if_neg hr, hbu, if_neg hnb]
          exact Or.inr (Or.inl (consumeCore_state_eq _ _ _ _ _))

/-- C10: for a RateLimitService without durable storage, consume keeps the
process-local map at no more than 512 entries (a write that pushes it past
512 deletes the first entry in iteration order), and all keys stay
nonempty. -/
theorem memory_cap_512 (s : RLState) (now : Nat) (identifier : String)
    (o : RateLimitOptions) (hlen : s.length ≤ 512)
    (hkeys : ∀ p ∈ s, p.1 ≠ "") :
    (consume s now identifier o).2.length ≤ 512 ∧
    ∀ p ∈ (consume s now identifier o).2, p.1 ≠ "" := by
  rcases consume_state_shape s now identifier o with h | ⟨w, h⟩ | ⟨w, h⟩
  · rw [h]
    exact ⟨hlen, hkeys⟩
  · rw [h]
    exact setEntry_inv s (rlKey identifier) w hlen (rlKey_ne_empty identifier) hkeys
  · rw [h]
    exact setEntry_inv _ (rlKey identifier) w
      (le_trans (mapDelete_length_le s (rlKey identifier)) hlen)
      (rlKey_ne_empty identifier)
      (fun p hp => hkeys p (mem_mapDelete hp))

/-- Witness for C10 on a concrete one-entry map. -/
theorem memory_cap_512_witness :
    (consume [(rlKey "v", ⟨1, 50, none⟩)] 100 "u"
      { limit := 3, windowMs := 1000 }).2.length ≤ 512 :=
  (memory_cap_512 [(rlKey "v", ⟨1, 50, none⟩)] 100 "u"
    { limit := 3, windowMs := 1000 } (by decide)
    (by
      intro p hp
      rw [List.mem_singleton] at hp
      rw [hp]
      exact rlKey_ne_empty "v")).1

/-! ## C5 -/

/-- C5: getCached returns a value only from an entry with now < expiresAt;
an existing but expired entry makes the read return absent and deletes the
entry; and a value set with TTL T is absent from any read more than T
later. -/
theorem cache_get_ttl_semantics {α : Type} (st : VectorCacheState α)
    (now : Nat) (key : String) (v : α) :
    ((getCached st now key).1 = some v →
      ∃ e, mapGet st.cache key = some e ∧ e.data = v ∧ now < e.expiresAt) ∧
    (∀ e, mapGet st.cache key = some e → e.expiresAt ≤ now →
      st.cacheEnabled = true →
      (getCached st now key).1 = none ∧
      mapGet (getCached st now key).2.cache key = none) ∧
    (∀ t, now + st.cacheTtlMs < t →
      (getCached (setCached st now key v) t key).1 = none) := by
  refine ⟨?_, ?_, ?_⟩
  · intro h
    by_cases hen : st.cacheEnabled = false
    · simp [getCached, hen] at h
    · simp only [getCached, if_neg hen] at h
      rcases hm : mapGet st.cache key with _ | e
      · simp only [hm] at h
        cases h
      · simp only [hm] at h
        by_cases hexp : e.expiresAt > now
        · rw [if_pos hexp] at h
          exact ⟨e, rfl, Option.some.inj h, hexp⟩
        · rw [if_neg hexp] at h
          cases h
  · intro e he hexp hen
    have hen' : ¬ (st.cacheEnabled = false) := by simp [hen]
    have hng : ¬ (e.expiresAt > now) := by omega
    simp only [getCached, if_neg hen', he, if_neg hng]
    refine ⟨trivial, ?_⟩
    rw [mapGet_mapDelete]
    simp
  · intro t ht
    by_cases hen : st.cacheEnabled = false
    · simp [setCached, getCached, hen]
    · simp only [setCached, if_neg hen, getCached, if_neg hen]
      rcases hm : mapGet (cappedSet st.cache st.maxCacheEntries key
          ⟨v, now + st.cacheTtlMs⟩) key with _ | e
      · simp
      · rw [mapGet_cappedSet_self _ _ _ _ hm]
        have hng : ¬ (now + st.cacheTtlMs > t) := by omega
        simp [hng]

/-- Witness for C5: an expired entry reads as absent, and a fresh set is
absent 45001ms later with the default 45s TTL. -/
theorem cache_get_ttl_semantics_witness :
    (getCached (⟨[("k", ⟨7, 100⟩)], true, 45000, 256⟩ : VectorCacheState Nat)
      100 "k").1 = none ∧
    (getCached (setCached (⟨[], true, 45000, 256⟩ : VectorCacheState Nat)
      0 "k" 7) 45001 "k").1 = none := by
  constructor
  · exact ((cache_get_ttl_semantics
      (⟨[("k", ⟨7, 100⟩)], true, 45000, 256⟩ : VectorCacheState Nat) 100 "k" 7).2.1
      ⟨7, 100⟩ (by decide) (by decide) rfl).1
  · exact (cache_get_ttl_semantics
      (⟨[], true, 45000, 256⟩ : VectorCacheState Nat) 0 "k" 7).2.2 45001 (by decide)

/-! ## C6 -/

/-- Inserting keys that are new, distinct, and fit within maxEntries appends
them in order without evicting anything. -/
lemma setCachedList_no_evict {α : Type} (now : Nat) :
    ∀ (l : List (String × α)) (st : VectorCacheState α),
      st.cacheEnabled = true →
      (∀ p ∈ l, ∀ q ∈ st.cache, q.1 ≠ p.1) →
      (l.map Prod.fst).Nodup →
      st.cache.length + l.length ≤ st.maxCacheEntries →
      setCachedList st now l =
        { st with cache :=
            st.cache ++ l.map (fun p => (p.1, ⟨p.2, now + st.cacheTtlMs⟩)) }
  | [], st, _, _, _, _ => by simp [setCachedList]
  | (k, v) :: rest, st, hen, hdisj, hnod, hlen => by
    have hen' : ¬ (st.cacheEnabled = false) := by simp [hen]
    have hnotmem : ∀ q ∈ st.cache, q.1 ≠ k :=
      fun q hq => hdisj (k, v) (by simp) q hq
    have hset : mapSet st.cache k ⟨v, now + st.cacheTtlMs⟩ =
        st.cache ++ [(k, ⟨v, now + st.cacheTtlMs⟩)] :=
      mapSet_of_not_mem _ _ _ hnotmem
    have hng : ¬ ((st.cache ++ [(k, (⟨v, now + st.cacheTtlMs⟩ :
        VectorCacheEntry α))]).length > st.maxCacheEntries) := by
      simp only [List.length_append, List.length_cons, List.length_nil]
      simp only [List.length_cons] at hlen
      omega
    have hstep : setCached st now k v =
        { st with cache := st.cache ++ [(k, ⟨v, now + st.cacheTtlMs⟩)] } := by
      simp only [setCached, if_neg hen', cappedSet, hset]
      rw [if_neg hng]
    have hknotin : ∀ p ∈ rest, p.1 ≠ k := by
      intro p hp hpk
      simp only [List.map_cons, List.nodup_cons] at hnod
      exact hnod.1 (List.mem_map.mpr ⟨p, hp, hpk⟩)
    have hih := setCachedList_no_evict now rest
      { st with cache := st.cache ++ [(k, ⟨v, now + st.cacheTtlMs⟩)] }
      hen
      (by
        intro p hp q hq
        rcases List.mem_append.mp hq with hq | hq
        · exact hdisj p (List.mem_cons_of_mem _ hp) q hq
        · rw [List.mem_singleton] at hq
          rw [hq]
          exact fun h => hknotin p hp h.symm)
      (by
        simp only [List.map_cons, List.nodup_cons] at hnod
        exact hnod.2)
      (by
        simp only [List.length_append, List.length_cons, List.length_nil]
        simp only [List.length_cons] at hlen
        omega)
    simp only [setCachedList, List.foldl_cons] at hih ⊢
    rw [hstep, hih]
    simp [List.append_assoc]

/-- A capped write of a fresh key into a full map of distinct, nonempty,
different keys appends the new binding and evicts the head. -/
lemma cappedSet_overflow_evicts_head {α : Type} (m : List (String × α))
    (k : String) (v : α) (N : Nat) (hmlen : m.length = N)
    (hknot : ∀ p ∈ m, p.1 ≠ k) (hkeys : ∀ p ∈ m, p.1 ≠ "") (hk : k ≠ "")
    (hnodm : (m.map Prod.fst).Nodup) :
    cappedSet m N k v = (m ++ [(k, v)]).tail := by
  have hset : mapSet m k v = m ++ [(k, v)] := mapSet_of_not_mem _ _ _ hknot
  have hgt : ((m ++ [(k, v)]).length > N) := by
    simp only [List.length_append, List.length_cons, List.length_nil]
    omega
  simp only [cappedSet, hset]
  rw [if_pos hgt]
  cases m with
  | nil =>
    simp only [List.nil_append]
    rw [show firstKey [(k, v)] = k from rfl, if_pos hk]
    simp [mapDelete]
  | cons q qs =>
    rw [show firstKey ((q :: qs) ++ [(k, v)]) = q.1 from rfl,
        if_pos (hkeys q (List.mem_cons_self q qs))]
    show mapDelete ((q :: qs) ++ [(k, v)]) q.1 = _
    simp only [List.cons_append, mapDelete, beq_iff_eq, if_pos rfl]
    rw [mapDelete_of_not_mem]
    · rfl
    · intro p hp
      rcases List.mem_append.mp hp with hp | hp
      · intro hpq
        simp only [List.map_cons, List.nodup_cons] at hnodm
        exact hnodm.1 (List.mem_map.mpr ⟨p, hp, hpq⟩)
      · rw [List.mem_singleton] at hp
        rw [hp]
        exact fun h => (hknot q (List.mem_cons_self q qs)) h.symm

/-- C6: starting from an empty cache with capacity maxEntries, inserting
maxEntries+1 distinct keys makes exactly the earliest-inserted key
unretrievable while every later key remains retrievable (reading within
the TTL). -/
theorem cache_eviction_oldest {α : Type} (l : List (String × α))
    (N ttl now : Nat) (hn : (l.map Prod.fst).Nodup)
    (hne : ∀ p ∈ l, p.1 ≠ "") (httl : 0 < ttl) (hlen : l.length = N + 1) :
    (∀ k0 v0, l.head? = some (k0, v0) →
      (getCached (setCachedList ⟨[], true, ttl, N⟩ now l) now k0).1 = none) ∧
    (∀ p ∈ l.tail,
      (getCached (setCachedList ⟨[], true, ttl, N⟩ now l) now p.1).1 =
        some p.2) := by
  have hnil : l ≠ [] := by
    intro h
    rw [h] at hlen
    simp at hlen
  have hsplit : l.dropLast ++ [l.getLast hnil] = l :=
    List.dropLast_append_getLast hnil
  have hinitlen : l.dropLast.length = N := by
    rw [List.length_dropLast, hlen]
    omega
  have hkeys := hn
  rw [← hsplit, List.map_append, List.nodup_append] at hkeys
  have hkinit : (l.dropLast.map Prod.fst).Nodup := hkeys.1
  have hdisj : ∀ p ∈ l.dropLast, p.1 ≠ (l.getLast hnil).1 := by
    intro p hp hpk
    exact hkeys.2.2 (List.mem_map.mpr ⟨p, hp, rfl⟩) (by simp [hpk])
  have h1 : setCachedList ⟨[], true, ttl, N⟩ now l.dropLast =
      ⟨l.dropLast.map (fun p => (p.1, ⟨p.2, now + ttl⟩)), true, ttl, N⟩ := by
    have := setCachedList_no_evict now l.dropLast ⟨[], true, ttl, N⟩ rfl
      (by intro p _ q hq; simp at hq)
      hkinit
      (by simp [hinitlen])
    simpa using this
  have hlastmem : l.getLast hnil ∈ l := List.getLast_mem hnil
  have hkeysf : (l.dropLast.map
      (fun p => (p.1, (⟨p.2, now + ttl⟩ : VectorCacheEntry α)))).map Prod.fst =
      l.dropLast.map Prod.fst := by
    rw [List.map_map]
    rfl
  have hcache : cappedSet
      (l.dropLast.map (fun p => (p.1, (⟨p.2, now + ttl⟩ : VectorCacheEntry α))))
      N (l.getLast hnil).1 ⟨(l.getLast hnil).2, now + ttl⟩ =
      (l.map (fun p => (p.1, ⟨p.2, now + ttl⟩))).tail := by
    rw [cappedSet_overflow_evicts_head]
    · congr 1
      conv_rhs => rw [← hsplit]
      rw [List.map_append]
      rfl
    · rw [List.length_map, hinitlen]
    · intro p hp
      rcases List.mem_map.mp hp with ⟨q, hq, hqp⟩
      rw [← hqp]
      exact hdisj q hq
    · intro p hp
      rcases List.mem_map.mp hp with ⟨q, hq, hqp⟩
      rw [← hqp]
      exact hne q (List.dropLast_subset l hq)
    · exact hne _ hlastmem
    · rw [hkeysf]
      exact hkinit
  have hstep2 : setCached
      (⟨l.dropLast.map (fun p => (p.1, ⟨p.2, now + ttl⟩)), true, ttl, N⟩ :
        VectorCacheState α) now (l.getLast hnil).1 (l.getLast hnil).2 =
      ⟨(l.map (fun p => (p.1, ⟨p.2, now + ttl⟩))).tail, true, ttl, N⟩ := by
    simp only [setCached]
    rw [if_neg (by simp)]
    show (⟨cappedSet (l.dropLast.map (fun p => (p.1, ⟨p.2, now + ttl⟩))) N
      (l.getLast hnil).1 ⟨(l.getLast hnil).2, now + ttl⟩, true, ttl, N⟩ :
        VectorCacheState α) = _
    rw [hcache]
  have happ : setCachedList (⟨[], true, ttl, N⟩ : VectorCacheState α) now
      (l.dropLast ++ [l.getLast hnil]) =
      setCached (setCachedList ⟨[], true, ttl, N⟩ now l.dropLast) now
        (l.getLast hnil).1 (l.getLast hnil).2 := by
    simp only [setCachedList, List.foldl_append, List.foldl_cons, List.foldl_nil]
  have hstF : setCachedList (⟨[], true, ttl, N⟩ : VectorCacheState α) now l =
      ⟨(l.map (fun p => (p.1, ⟨p.2, now + ttl⟩))).tail, true, ttl, N⟩ := by
    conv_lhs => rw [← hsplit]
    rw [happ, h1, hstep2]
  rcases l with _ | ⟨p0, rest⟩
  · cases hnil rfl
  · constructor
    · intro k0 v0 hhead
      have hp0 : p0 = (k0, v0) := Option.some.inj hhead
      rw [hstF]
      have htail : ((p0 :: rest).map
          (fun p => (p.1, (⟨p.2, now + ttl⟩ : VectorCacheEntry α)))).tail =
          rest.map (fun p => (p.1, ⟨p.2, now + ttl⟩)) := by
        simp
      have hget : mapGet (rest.map
          (fun p => (p.1, (⟨p.2, now + ttl⟩ : VectorCacheEntry α)))) k0 = none := by
        rw [mapGet_eq_none_iff]
        intro q hq
        rcases List.mem_map.mp hq with ⟨r, hr, hrq⟩
        rw [← hrq]
        intro hrk
        simp only [List.map_cons, List.nodup_cons] at hn
        apply hn.1
        rw [hp0]
        exact List.mem_map.mpr ⟨r, hr, hrk⟩
      simp only [getCached, htail]
      rw [if_neg (by simp), hget]
    · intro p hp
      rw [hstF]
      have htail : ((p0 :: rest).map
          (fun q => (q.1, (⟨q.2, now + ttl⟩ : VectorCacheEntry α)))).tail =
          rest.map (fun q => (q.1, ⟨q.2, now + ttl⟩)) := by
        simp
      have hget : mapGet (rest.map
          (fun q => (q.1, (⟨q.2, now + ttl⟩ : VectorCacheEntry α)))) p.1 =
          some ⟨p.2, now + ttl⟩ := by
        apply mapGet_of_nodup_mem
        · have : (rest.map (fun q =>
              (q.1, (⟨q.2, now + ttl⟩ : VectorCacheEntry α)))).map Prod.fst =
              rest.map Prod.fst := by
            rw [List.map_map]
            rfl
          rw [this]
          simp only [List.map_cons, List.nodup_cons] at hn
          exact hn.2
        · exact List.mem_map.mpr ⟨p, hp, rfl⟩
      simp only [getCached, htail]
      rw [if_neg (by simp), hget]
      have hgt : (⟨p.2, now + ttl⟩ : VectorCacheEntry α).expiresAt > now := by
        show now + ttl > now
        omega
      simp [hgt]

/-- Witness for C6: capacity 1, inserting keys a then b evicts a and
keeps b. -/
theorem cache_eviction_oldest_witness :
    (getCached (setCachedList (⟨[], true, 10, 1⟩ : VectorCacheState Nat)
      0 [("a", 1), ("b", 2)]) 0 "a").1 = none ∧
    (getCached (setCachedList (⟨[], true, 10, 1⟩ : VectorCacheState Nat)
      0 [("a", 1), ("b", 2)]) 0 "b").1 = some 2 := by
  have h := cache_eviction_oldest [("a", (1 : Nat)), ("b", 2)] 1 10 0
    (by decide) (by decide) (by decide) (by decide)
  exact ⟨h.1 "a" 1 rfl, h.2 ("b", 2) (by decide)⟩

/-! ## C7 -/

lemma stableSerializeFields_eq_map (f : List (String × JValue)) :
    stableSerializeFields f = f.map (fun p => (p.1, stableSerialize p.2)) := by
  induction f with
  | nil => rfl
  | cons p rest ih =>
    cases p with
    | mk k v => simp [stableSerializeFields, ih]

lemma keys_stableSerializeFields (f : List (String × JValue)) :
    (stableSerializeFields f).map Prod.fst = f.map Prod.fst := by
  rw [stableSerializeFields_eq_map, List.map_map]
  rfl

lemma mapGet_eq_of_perm_nodup {α : Type} {m1 m2 : List (String × α)}
    (hp : m1.Perm m2) (hn : (m1.map Prod.fst).Nodup) (k : String) :
    mapGet m1 k = mapGet m2 k := by
  rcases h1 : mapGet m1 k with _ | v
  · symm
    rw [mapGet_eq_none_iff] at h1 ⊢
    intro p hpm
    exact h1 p (hp.symm.subset hpm)
  · have hmem : (k, v) ∈ m2 := hp.subset (mapGet_eq_some_mem h1)
    have hn2 : (m2.map Prod.fst).Nodup := ((hp.map Prod.fst).nodup_iff).mp hn
    exact (mapGet_of_nodup_mem hn2 hmem).symm

/-- C7: stableSerialize of two objects holding the same key-value pairs in
different insertion order is identical, so the derived cache keys built
from the two serializations coincide. -/
theorem stable_serialize_order_independent (f1 f2 : List (String × JValue))
    (kind : String) (pre : List String)
    (hperm : f1.Perm f2) (hnodup : (f1.map Prod.fst).Nodup) :
    stableSerialize (.obj f1) = stableSerialize (.obj f2) ∧
    buildCacheKey kind (pre ++ [stableSerialize (.obj f1)]) =
      buildCacheKey kind (pre ++ [stableSerialize (.obj f2)]) := by
  have hperm' : (stableSerializeFields f1).Perm (stableSerializeFields f2) := by
    rw [stableSerializeFields_eq_map, stableSerializeFields_eq_map]
    exact hperm.map _
  have hkeysperm : ((stableSerializeFields f1).map Prod.fst).Perm
      ((stableSerializeFields f2).map Prod.fst) := hperm'.map _
  have hsorted : List.insertionSort strLe ((stableSerializeFields f1).map Prod.fst) =
      List.insertionSort strLe ((stableSerializeFields f2).map Prod.fst) :=
    List.eq_of_perm_of_sorted
      ((List.perm_insertionSort _ _).trans
        (hkeysperm.trans (List.perm_insertionSort _ _).symm))
      (List.sorted_insertionSort _ _) (List.sorted_insertionSort _ _)
  have hnodupS : ((stableSerializeFields f1).map Prod.fst).Nodup := by
    rw [keys_stableSerializeFields]
    exact hnodup
  have hlookup : ∀ k, mapGet (stableSerializeFields f1) k =
      mapGet (stableSerializeFields f2) k :=
    fun k => mapGet_eq_of_perm_nodup hperm' hnodupS k
  have hser : stableSerialize (JValue.obj f1) = stableSerialize (JValue.obj f2) := by
    simp only [stableSerialize]
    rw [hsorted]
    congr 1
    congr 1
    congr 1
    apply List.map_congr_left
    intro k _
    rw [hlookup k]
  exact ⟨hser, by rw [hser]⟩

/-- Witness for C7 on the filter objects b=1,a="x" in both insertion
orders. -/
theorem stable_serialize_order_independent_witness :
    stableSerialize (.obj [("b", .num 1), ("a", .str "x")]) =
      stableSerialize (.obj [("a", .str "x"), ("b", .num 1)]) ∧
    buildCacheKey "query" (["content", "q", "5"] ++
      [stableSerialize (.obj [("b", .num 1), ("a", .str "x")])]) =
    buildCacheKey "query" (["content", "q", "5"] ++
      [stableSerialize (.obj [("a", .str "x"), ("b", .num 1)])]) :=
  stable_serialize_order_independent
    [("b", .num 1), ("a", .str "x")] [("a", .str "x"), ("b", .num 1)]
    "query" ["content", "q", "5"]
    (List.Perm.swap ("a", JValue.str "x") ("b", JValue.num 1) [])
    (by decide)

/-! ## C8 -/

/-- C8: the gateway cache key is a deterministic function of the model and
the ordered message list; when the digest primitive fails, the deriver
returns the empty string and the outbound headers carry no cf-aig-cache-key
entry. -/
theorem gateway_cache_key_deterministic (digest : String → Option (List Nat))
    (model model' : String) (msgs msgs' : List GMessage) (ttl : Nat)
    (hm : model = model') (hmsg : msgs = msgs') :
    buildGatewayCacheKey digest model msgs =
      buildGatewayCacheKey digest model' msgs' ∧
    (digest (gatewayPayload model msgs) = none →
      buildGatewayCacheKey digest model msgs = "" ∧
      mapGet (gatewayHeaders (buildGatewayCacheKey digest model msgs) ttl)
        "cf-aig-cache-key" = none) := by
  subst hm
  subst hmsg
  refine ⟨rfl, ?_⟩
  intro hfail
  have hk : buildGatewayCacheKey digest model msgs = "" := by
    simp [buildGatewayCacheKey, hfail]
  refine ⟨hk, ?_⟩
  rw [hk]
  simp only [gatewayHeaders, ne_eq, not_true_eq_false, if_false, mapGet]
  rw [if_neg (by decide), if_neg (by decide)]

/-- Witness for C8 with a digest that fails on every input. -/
theorem gateway_cache_key_deterministic_witness :
    buildGatewayCacheKey (fun _ => none) "gpt-4" [⟨"user", "hi"⟩] = "" ∧
    mapGet (gatewayHeaders
      (buildGatewayCacheKey (fun _ => none) "gpt-4" [⟨"user", "hi"⟩]) 3600)
      "cf-aig-cache-key" = none :=
  (gateway_cache_key_deterministic (fun _ => none) "gpt-4" "gpt-4"
    [⟨"user", "hi"⟩] [⟨"user", "hi"⟩] 3600 rfl rfl).2 rfl

/-! ## C9 -/

/-- C9: when the limiter denies, the handler returns status 429 with a
Retry-After header equal to the limiter's retryAfter and a JSON body with
exactly the fields error, bucket, retryAfter; when the limiter allows, no
rate-limit response is produced. -/
theorem http_rate_limit_429_response (s : RLState) (now : Nat)
    (bucket clientId : String) (limit windowMs : Nat) :
    ((consume s now (bucket ++ ":" ++ clientId)
        { limit := limit, windowMs := windowMs,
          blockDurationMs := some windowMs }).1.allowed = true →
      (enforceHttpRateLimit s now bucket clientId limit windowMs).1 = none) ∧
    ((consume s now (bucket ++ ":" ++ clientId)
        { limit := limit, windowMs := windowMs,
          blockDurationMs := some windowMs }).1.allowed = false →
      ∃ ra, (consume s now (bucket ++ ":" ++ clientId)
          { limit := limit, windowMs := windowMs,
            blockDurationMs := some windowMs }).1.retryAfter = some ra ∧
        (enforceHttpRateLimit s now bucket clientId limit windowMs).1 =
          some { status := 429,
                 headers := [("Retry-After", toString (ra : Int))],
                 body := { error := "Rate limit exceeded", bucket := bucket,
                           retryAfter := (ra : Int) } }) := by
  constructor
  · intro hallow
    simp only [enforceHttpRateLimit]
    rw [if_pos hallow]
  · intro hden
    rcases consume_result_shape s now (bucket ++ ":" ++ clientId)
        { limit := limit, windowMs := windowMs,
          blockDurationMs := some windowMs } with
      ⟨_, _, ⟨ra, hra⟩⟩ | ⟨htrue, _, _⟩
    · refine ⟨ra, hra, ?_⟩
      simp only [enforceHttpRateLimit]
      rw [if_neg (by rw [hden]; simp), hra]
    · rw [hden] at htrue
      cases htrue

/-- Witness for C9: an in-limit call produces no response; a zero-limit
call produces the full 429 response. -/
theorem http_rate_limit_429_response_witness :
    (enforceHttpRateLimit [] 0 "crawl" "1.2.3.4" 10 60000).1 = none ∧
    (enforceHttpRateLimit [] 0 "search" "1.2.3.4" 0 60000).1 =
      some ⟨429, [("Retry-After", "60")],
            ⟨"Rate limit exceeded", "search", 60⟩⟩ := by
  constructor
  · exact (http_rate_limit_429_response [] 0 "crawl" "1.2.3.4" 10 60000).1
      (by decide)
  · obtain ⟨ra, hra, hresp⟩ :=
      (http_rate_limit_429_response [] 0 "search" "1.2.3.4" 0 60000).2 (by decide)
    have h60 : ra = 60 := Option.some.inj
      (hra.symm.trans (by decide : (consume [] 0 ("search" ++ ":" ++ "1.2.3.4")
        { limit := 0, windowMs := 60000,
          blockDurationMs := some 60000 }).1.retryAfter = some 60))
    rw [h60] at hresp
    exact hresp.trans (by decide)

end RnbwSmk
